import Mathlib

/-!
Verification of the weighted-sector wheel and gaze-to-sector resolution logic
of the face-detection party game (src/script.js).

The JavaScript source is shallowly embedded below.  Numbers are modelled as
exact reals, JS arrays as Lean lists (out-of-range reads, which throw or give
undefined in JS, are modelled with Option / recursion running out), and the
per-frame handler is modelled as an explicit state-passing function.
-/

open Real

set_option maxHeartbeats 1000000
set_option maxRecDepth 8000

/-- A MediaPipe face landmark: normalized x, y coordinates plus relative depth z. -/
structure Landmark where
  x : ℝ
  y : ℝ
  z : ℝ

/-- The global wheel state stored in the source variable sectorData
(fields destructured by detectDrawnRaySectorPrize and drawBackground). -/
structure SectorData where
  assignments : List String
  weights : List ℝ
  totalWeight : ℝ
  totalSectors : ℕ

/-- The fixed prizeValues table of script.js lines 8-15: a JS object lookup,
returning undefined (here none) for keys outside the six palette colors. -/
def prizeValues (color : String) : Option ℕ :=
  if color = "#FF78A3" then some 100
  else if color = "#47D495" then some 50
  else if color = "#FFCC8D" then some 20
  else if color = "#87C9EA" then some 10
  else if color = "#C088D2" then some 5
  else if color = "#DDDDDD" then some 1
  else none

/-- JS Math.atan2(y, x) in exact real arithmetic: the argument of the complex
number x + y i, with range (-π, π] and atan2 0 0 = 0, matching the JS
convention for non-signed-zero inputs. -/
noncomputable def atan2 (y x : ℝ) : ℝ :=
  Complex.arg ⟨x, y⟩

/-- Closed form of the two normalization while-loops of script.js lines 39-40
(add 2π while below -π/2, subtract 2π while at or above 3π/2): the unique
representative of the angle modulo 2π lying in [-π/2, -π/2 + 2π). -/
noncomputable def wrapAngle (a : ℝ) : ℝ :=
  toIcoMod Real.two_pi_pos (-(π / 2)) a

/-- The sector-scanning for-loop of detectDrawnRaySectorPrize (lines 44-56):
walks the color and weight arrays in lockstep (initDynamicBackground stores
both with length totalSectors), accumulating the running start angle, and on
the first sector whose half-open range contains the ray angle returns
prizeValues[color] with the JS "|| 0" default; falling out of the loop
returns 0. -/
noncomputable def sectorLoop (totalWeight rayAngle : ℝ) :
    List String → List ℝ → ℝ → ℕ
  | color :: restColors, w :: restWeights, currentAngle =>
      let span := w / totalWeight * (2 * π)
      let endAngle := currentAngle + span
      if currentAngle ≤ rayAngle ∧ rayAngle < endAngle then
        (prizeValues color).getD 0
      else
        sectorLoop totalWeight rayAngle restColors restWeights endAngle
  | _, _, _ => 0

/-- Index-returning companion of sectorLoop: the position of the first sector
whose half-open angle range contains the ray angle, if any.  Used to reason
about which sector the source loop selects. -/
noncomputable def findSector (totalWeight rayAngle : ℝ) :
    List ℝ → ℝ → Option ℕ
  | w :: restWeights, currentAngle =>
      let span := w / totalWeight * (2 * π)
      let endAngle := currentAngle + span
      if currentAngle ≤ rayAngle ∧ rayAngle < endAngle then
        some 0
      else
        (findSector totalWeight rayAngle restWeights endAngle).map (· + 1)
  | [], _ => none

/-- detectDrawnRaySectorPrize (script.js lines 24-57): returns 0 when the
wheel is uninitialized; otherwise mirrors the heading horizontally
(drawnRayX = -headingX), takes atan2, normalizes into [-π/2, 3π/2) and scans
the sectors from the top (12 o'clock) angle -π/2. -/
noncomputable def detectDrawnRaySectorPrize (sd : Option SectorData)
    (headingX headingY : ℝ) : ℕ :=
  match sd with
  | none => 0
  | some data =>
      let drawnRayX := -headingX
      let drawnRayY := headingY
      let rayAngle := wrapAngle (atan2 drawnRayY drawnRayX)
      sectorLoop data.totalWeight rayAngle data.assignments data.weights (-(π / 2))

/-- The failure condition of the heading estimator: a required landmark index
is absent from the frame (in JS the property access on undefined throws,
aborting the handler before any vector is produced). -/
inductive HeadingError where
  | missingLandmark

/-- MediaPipe landmark indices used by calculateFaceHeading (lines 66-68). -/
def NOSE_TIP : ℕ := 1

/-- Left ear tragion landmark index. -/
def LEFT_EAR_TRAGION : ℕ := 234

/-- Right ear tragion landmark index. -/
def RIGHT_EAR_TRAGION : ℕ := 454

/-- calculateFaceHeading (script.js lines 64-97): reads the nose tip and the
two ear tragions, averages the ears, subtracts to get the planar direction
(z is discarded) and scales by the fixed sensitivity 20.  A missing landmark
makes the JS code throw before returning; this is the error branch here. -/
noncomputable def calculateFaceHeading (landmarks : List Landmark) :
    Except HeadingError (ℝ × ℝ) :=
  match landmarks[NOSE_TIP]?, landmarks[LEFT_EAR_TRAGION]?,
      landmarks[RIGHT_EAR_TRAGION]? with
  | some nose, some leftEar, some rightEar =>
      let midX := (leftEar.x + rightEar.x) / 2
      let midY := (leftEar.y + rightEar.y) / 2
      let dirX := nose.x - midX
      let dirY := nose.y - midY
      let sensitivity : ℝ := 20
      Except.ok (dirX * sensitivity, dirY * sensitivity)
  | _, _, _ => Except.error HeadingError.missingLandmark

/-- The per-face body of the onResults loop (lines 114-160), restricted to its
money-display effect: each face updates the displayed prize; a face whose
heading computation throws aborts the whole handler, so the loop stops and
the display keeps its current value. -/
noncomputable def onResultsFrame (sd : Option SectorData) :
    List (List Landmark) → ℕ → ℕ
  | [], money => money
  | landmarks :: rest, money =>
      match calculateFaceHeading landmarks with
      | Except.error _ => money
      | Except.ok heading =>
          onResultsFrame sd rest
            (detectDrawnRaySectorPrize sd heading.1 heading.2)

/-- onResults (script.js lines 99-163) restricted to the money display: when
results.multiFaceLandmarks is absent the loop body never runs and the
display is unchanged; otherwise each detected face is processed in order. -/
noncomputable def onResultsMoney (sd : Option SectorData)
    (results : Option (List (List Landmark))) (money : ℕ) : ℕ :=
  match results with
  | none => money
  | some faces => onResultsFrame sd faces money

/-- The fixed palette of initDynamicBackground (line 217). -/
def palette : List String :=
  ["#FF78A3", "#47D495", "#FFCC8D", "#87C9EA", "#C088D2", "#DDDDDD"]

/-- The fixed sector count of initDynamicBackground (line 218). -/
def totalSectors : ℕ := 20

/-- Lines 221-224: seed the assignment list with one copy of every palette
color, then the while-loop pushes total - palette.length random picks
(pick k is the random index drawn at iteration k). -/
def seedAssignments (pal : List String) (total : ℕ) (pick : ℕ → ℕ) :
    List String :=
  pal ++ (List.range (total - pal.length)).map (fun k => pal.getD (pick k) "")

/-- The destructuring swap of line 229; the JS indices are always in bounds,
and out-of-bounds indices leave the list unchanged here. -/
def swapAt (l : List α) (i j : ℕ) : List α :=
  match l[i]?, l[j]? with
  | some a, some b => (l.set i b).set j a
  | _, _ => l

/-- The Fisher-Yates downward for-loop of lines 227-230: at index i > 0 swap
position i with position choice i (the random j drawn in [0, i]), then
continue with i - 1. -/
def fyLoop (choice : ℕ → ℕ) : List α → ℕ → List α
  | l, 0 => l
  | l, i + 1 => fyLoop choice (swapAt l (i + 1) (choice (i + 1))) i

/-- The whole shuffle of lines 227-230, starting from index length - 1. -/
def fyShuffle (choice : ℕ → ℕ) (l : List α) : List α :=
  fyLoop choice l (l.length - 1)

/-- Line 233: one random weight per sector, rand k * 0.8 + 0.4 with
rand k the k-th Math.random() draw in [0, 1). -/
noncomputable def initWeights (rand : ℕ → ℝ) : List ℝ :=
  (List.range totalSectors).map (fun k => rand k * 0.8 + 0.4)

/-- initDynamicBackground (lines 216-241) restricted to the sectorData it
stores: shuffled full-coverage color assignments, the random weights, their
sum as totalWeight, and the fixed sector count. -/
noncomputable def initSectorData (pick choice : ℕ → ℕ) (rand : ℕ → ℝ) :
    SectorData :=
  let assignments := fyShuffle choice (seedAssignments palette totalSectors pick)
  let weights := initWeights rand
  { assignments := assignments
    weights := weights
    totalWeight := weights.sum
    totalSectors := totalSectors }

/-- The per-sector record pushed into sectorAngles by drawBackground
(lines 277-282). -/
structure SectorView where
  startAngle : ℝ
  endAngle : ℝ
  midAngle : ℝ
  color : String

/-- The sector-layout loop of drawBackground (lines 269-301): lays the
sectors out sequentially from -π/2, each spanning weight / totalWeight * 2π
radians, recording start, end, mid angle and color. -/
noncomputable def buildSectorViews (totalWeight : ℝ) :
    List String → List ℝ → ℝ → List SectorView
  | color :: restColors, w :: restWeights, currentAngle =>
      let span := w / totalWeight * (2 * π)
      { startAngle := currentAngle
        endAngle := currentAngle + span
        midAngle := currentAngle + span / 2
        color := color } ::
        buildSectorViews totalWeight restColors restWeights (currentAngle + span)
  | _, _, _ => []

/-- drawBackground (lines 243-301) as a pure function of the wheel state and
the viewport: it only reads sectorData (never writes it) and produces the
sector views plus the pixel geometry (centerX, centerY, radius) that depends
on the window size. -/
noncomputable def drawBackground (sd : Option SectorData) (winW winH : ℝ) :
    Option (List SectorView × ℝ × ℝ × ℝ) :=
  match sd with
  | none => none
  | some data =>
      let centerX := winW / 2
      let centerY := winH / 2
      let radius := Real.sqrt (centerX * centerX + centerY * centerY) + 50
      some (buildSectorViews data.totalWeight data.assignments data.weights
        (-(π / 2)), centerX, centerY, radius)

/-- The events that touch the wheel state after initialization: a window
resize (handled by drawBackground, line 378) and a camera frame (handled by
onResults). -/
inductive GameEvent where
  | resize (winW winH : ℝ)
  | frame (results : Option (List (List Landmark)))

/-- The mutable state relevant to the wheel: the sectorData variable and the
money display. -/
structure GameState where
  sectorData : Option SectorData
  money : ℕ

/-- One event step: the resize handler only redraws (drawBackground assigns
neither sectorData nor the money display), and a frame runs onResults, which
reads sectorData and writes only the money display. -/
noncomputable def stepEvent (s : GameState) (e : GameEvent) : GameState :=
  match e with
  | GameEvent.resize _ _ => s
  | GameEvent.frame r =>
      { s with money := onResultsMoney s.sectorData r s.money }

/-- The start angle of sector i in the layout: -π/2 plus the scaled sum of
the first i weights.  This is the value of currentAngle when the scanning
and drawing loops reach index i. -/
noncomputable def sectorStart (ws : List ℝ) (W : ℝ) (i : ℕ) : ℝ :=
  -(π / 2) + (ws.take i).sum / W * (2 * π)

/-! ### Basic facts about the prize table and the scanning loop -/

lemma prizeValues_getD_mem (c : String) :
    (prizeValues c).getD 0 ∈ ({0, 1, 5, 10, 20, 50, 100} : Finset ℕ) := by
  unfold prizeValues
  split_ifs <;> simp

lemma prizeValues_some_mem (c : String) (p : ℕ) (h : prizeValues c = some p) :
    p ∈ ({1, 5, 10, 20, 50, 100} : Finset ℕ) := by
  unfold prizeValues at h
  split_ifs at h <;> simp_all

lemma sectorLoop_mem (W a : ℝ) :
    ∀ (cs : List String) (ws : List ℝ) (c : ℝ),
      sectorLoop W a cs ws c ∈ ({0, 1, 5, 10, 20, 50, 100} : Finset ℕ) := by
  intro cs
  induction cs with
  | nil => intro ws c; cases ws <;> simp [sectorLoop]
  | cons color rest ih =>
      intro ws c
      cases ws with
      | nil => simp [sectorLoop]
      | cons w ws' =>
          simp only [sectorLoop]
          split
          · exact prizeValues_getD_mem color
          · exact ih ws' _

lemma detect_mem (sd : Option SectorData) (hx hy : ℝ) :
    detectDrawnRaySectorPrize sd hx hy ∈ ({0, 1, 5, 10, 20, 50, 100} : Finset ℕ) := by
  cases sd with
  | none => simp [detectDrawnRaySectorPrize]
  | some d =>
      simp only [detectDrawnRaySectorPrize]
      exact sectorLoop_mem _ _ _ _ _

/-- C10: for every input heading and wheel state the returned prize lies in
{100, 50, 20, 10, 5, 1, 0}, and every value actually present in the fixed
prize table is one of the strictly positive prizes {100, 50, 20, 10, 5, 1},
so 0 never arises as a legitimate table prize. -/
theorem prize_codomain :
    (∀ (sd : Option SectorData) (hx hy : ℝ),
      detectDrawnRaySectorPrize sd hx hy ∈ ({0, 1, 5, 10, 20, 50, 100} : Finset ℕ)) ∧
    ∀ (c : String) (p : ℕ), prizeValues c = some p →
      p ∈ ({1, 5, 10, 20, 50, 100} : Finset ℕ) :=
  ⟨detect_mem, prizeValues_some_mem⟩

theorem prize_codomain_witness :
    detectDrawnRaySectorPrize none 0 0 ∈ ({0, 1, 5, 10, 20, 50, 100} : Finset ℕ) ∧
    prizeValues "#FF78A3" = some 100 ∧
    (100 : ℕ) ∈ ({1, 5, 10, 20, 50, 100} : Finset ℕ) :=
  ⟨prize_codomain.1 none 0 0, by decide,
    prize_codomain.2 "#FF78A3" 100 (by decide)⟩

/-! ### C8: uninitialized wheel -/

lemma detect_none (hx hy : ℝ) : detectDrawnRaySectorPrize none hx hy = 0 := rfl

lemma onResultsFrame_none (faces : List (List Landmark)) :
    ∀ money, onResultsFrame none faces money = money ∨
      onResultsFrame none faces money = 0 := by
  induction faces with
  | nil => intro money; left; rfl
  | cons f rest ih =>
      intro money
      simp only [onResultsFrame]
      cases h : calculateFaceHeading f with
      | error e => left; rfl
      | ok heading =>
          right
          rcases ih 0 with h1 | h1 <;> simpa [detect_none] using h1

/-- C8: when the wheel is absent the resolver returns the sentinel 0, which is
distinct from every value of the prize table (all table prizes are strictly
positive), and the frame handler consequently never puts a table prize on the
display: the money display is either left unchanged or shows the sentinel 0. -/
theorem uninitialized_wheel_sentinel :
    (∀ hx hy : ℝ, detectDrawnRaySectorPrize none hx hy = 0) ∧
    (∀ (c : String) (p : ℕ), prizeValues c = some p → 0 < p) ∧
    ∀ (r : Option (List (List Landmark))) (money : ℕ),
      onResultsMoney none r money = money ∨ onResultsMoney none r money = 0 := by
  refine ⟨detect_none, ?_, ?_⟩
  · intro c p h
    have := prizeValues_some_mem c p h
    fin_cases this <;> norm_num
  · intro r money
    cases r with
    | none => left; rfl
    | some faces => exact onResultsFrame_none faces money

theorem uninitialized_wheel_sentinel_witness :
    detectDrawnRaySectorPrize none 1 0 = 0 ∧
    prizeValues "#DDDDDD" = some 1 ∧ 0 < 1 ∧
    (onResultsMoney none (some []) 7 = 7 ∨ onResultsMoney none (some []) 7 = 0) :=
  ⟨uninitialized_wheel_sentinel.1 1 0, by decide,
    uninitialized_wheel_sentinel.2.1 "#DDDDDD" 1 (by decide),
    uninitialized_wheel_sentinel.2.2 (some []) 7⟩

/-! ### C6 and C7: the heading estimator -/

lemma calculateFaceHeading_ok (lms : List Landmark) (nose leftEar rightEar : Landmark)
    (h1 : lms[NOSE_TIP]? = some nose) (h2 : lms[LEFT_EAR_TRAGION]? = some leftEar)
    (h3 : lms[RIGHT_EAR_TRAGION]? = some rightEar) :
    calculateFaceHeading lms =
      Except.ok ((nose.x - (leftEar.x + rightEar.x) / 2) * 20,
        (nose.y - (leftEar.y + rightEar.y) / 2) * 20) := by
  unfold calculateFaceHeading
  rw [h1, h2, h3]

lemma calculateFaceHeading_missing (lms : List Landmark)
    (h : lms[NOSE_TIP]? = none ∨ lms[LEFT_EAR_TRAGION]? = none ∨
      lms[RIGHT_EAR_TRAGION]? = none) :
    calculateFaceHeading lms = Except.error HeadingError.missingLandmark := by
  unfold calculateFaceHeading
  cases h1 : lms[NOSE_TIP]? <;> cases h2 : lms[LEFT_EAR_TRAGION]? <;>
    cases h3 : lms[RIGHT_EAR_TRAGION]? <;> simp_all

/-- C6: a landmark set lacking the nose tip, the left ear tragion or the
right ear tragion makes the heading estimator fail with the missing-landmark
condition instead of returning a vector, and the per-frame pipeline then
performs no prize update: the displayed money value is unchanged. -/
theorem missing_landmark_skips_frame (lms : List Landmark)
    (h : lms[NOSE_TIP]? = none ∨ lms[LEFT_EAR_TRAGION]? = none ∨
      lms[RIGHT_EAR_TRAGION]? = none) :
    calculateFaceHeading lms = Except.error HeadingError.missingLandmark ∧
    ∀ (sd : Option SectorData) (money : ℕ),
      onResultsMoney sd (some [lms]) money = money := by
  refine ⟨calculateFaceHeading_missing lms h, ?_⟩
  intro sd money
  simp [onResultsMoney, onResultsFrame, calculateFaceHeading_missing lms h]

theorem missing_landmark_skips_frame_witness :
    (List.replicate 300 (⟨0, 0, 0⟩ : Landmark))[RIGHT_EAR_TRAGION]? = none ∧
    calculateFaceHeading (List.replicate 300 ⟨0, 0, 0⟩) =
      Except.error HeadingError.missingLandmark ∧
    onResultsMoney none (some [List.replicate 300 ⟨0, 0, 0⟩]) 42 = 42 := by
  have habs : (List.replicate 300 (⟨0, 0, 0⟩ : Landmark))[RIGHT_EAR_TRAGION]? = none := by
    rw [List.getElem?_eq_none_iff]
    simp [RIGHT_EAR_TRAGION]
  have main := missing_landmark_skips_frame (List.replicate 300 ⟨0, 0, 0⟩)
    (Or.inr (Or.inr habs))
  exact ⟨habs, main.1, main.2 none 42⟩

/-- C7: whenever the three required landmarks are present, the heading
estimator returns exactly the planar nose-to-ear-midpoint difference scaled
by the fixed sensitivity 20, with no unit normalization; the result depends
only on the x and y coordinates of those three landmarks (in particular on no
z coordinate and on no other landmark). -/
theorem heading_formula (lms : List Landmark) (nose leftEar rightEar : Landmark)
    (h1 : lms[NOSE_TIP]? = some nose) (h2 : lms[LEFT_EAR_TRAGION]? = some leftEar)
    (h3 : lms[RIGHT_EAR_TRAGION]? = some rightEar) :
    calculateFaceHeading lms =
      Except.ok ((nose.x - (leftEar.x + rightEar.x) / 2) * 20,
        (nose.y - (leftEar.y + rightEar.y) / 2) * 20) ∧
    ∀ (lms2 : List Landmark) (nose2 leftEar2 rightEar2 : Landmark),
      lms2[NOSE_TIP]? = some nose2 → lms2[LEFT_EAR_TRAGION]? = some leftEar2 →
      lms2[RIGHT_EAR_TRAGION]? = some rightEar2 →
      nose2.x = nose.x → nose2.y = nose.y →
      leftEar2.x = leftEar.x → leftEar2.y = leftEar.y →
      rightEar2.x = rightEar.x → rightEar2.y = rightEar.y →
      calculateFaceHeading lms2 = calculateFaceHeading lms := by
  refine ⟨calculateFaceHeading_ok lms nose leftEar rightEar h1 h2 h3, ?_⟩
  intro lms2 nose2 leftEar2 rightEar2 e1 e2 e3 ex ey lx ly rx ry
  rw [calculateFaceHeading_ok lms2 nose2 leftEar2 rightEar2 e1 e2 e3,
    calculateFaceHeading_ok lms nose leftEar rightEar h1 h2 h3,
    ex, ey, lx, ly, rx, ry]

theorem heading_formula_witness :
    ((List.replicate 455 (⟨0, 0, 0⟩ : Landmark)).set 1 ⟨1, 2, 3⟩)[NOSE_TIP]? =
      some ⟨1, 2, 3⟩ ∧
    calculateFaceHeading ((List.replicate 455 (⟨0, 0, 0⟩ : Landmark)).set 1 ⟨1, 2, 3⟩) =
      Except.ok ((1 - (0 + 0) / 2) * 20, (2 - (0 + 0) / 2) * 20) := by
  have hn : ((List.replicate 455 (⟨0, 0, 0⟩ : Landmark)).set 1
      ⟨1, 2, 3⟩)[NOSE_TIP]? = some ⟨1, 2, 3⟩ := by
    rw [show NOSE_TIP = 1 from rfl, List.getElem?_set_self (by simp)]
  have hl : ((List.replicate 455 (⟨0, 0, 0⟩ : Landmark)).set 1
      ⟨1, 2, 3⟩)[LEFT_EAR_TRAGION]? = some ⟨0, 0, 0⟩ := by
    rw [show LEFT_EAR_TRAGION = 234 from rfl, List.getElem?_set_ne (by norm_num)]
    simp [List.getElem?_replicate]
  have hr : ((List.replicate 455 (⟨0, 0, 0⟩ : Landmark)).set 1
      ⟨1, 2, 3⟩)[RIGHT_EAR_TRAGION]? = some ⟨0, 0, 0⟩ := by
    rw [show RIGHT_EAR_TRAGION = 454 from rfl, List.getElem?_set_ne (by norm_num)]
    simp [List.getElem?_replicate]
  exact ⟨hn, (heading_formula _ ⟨1, 2, 3⟩ ⟨0, 0, 0⟩ ⟨0, 0, 0⟩ hn hl hr).1⟩

/-! ### C4: the shuffle is a permutation and coverage is preserved -/

lemma set_self_of_getElem (l : List α) :
    ∀ (i : ℕ) (a : α), l[i]? = some a → l.set i a = l := by
  induction l with
  | nil => intro i a h; simp at h
  | cons x t ih =>
      intro i a h
      cases i with
      | zero => simp at h; simp [h]
      | succ k =>
          simp only [List.getElem?_cons_succ] at h
          simp [List.set, ih k a h]

lemma cons_set_perm (a : α) :
    ∀ (t : List α) (k : ℕ) (b : α), t[k]? = some b →
      List.Perm (b :: t.set k a) (a :: t) := by
  intro t
  induction t with
  | nil => intro k b h; simp at h
  | cons x t' ih =>
      intro k b h
      cases k with
      | zero =>
          simp only [List.getElem?_cons_zero, Option.some.injEq] at h
          subst h
          simpa [List.set] using List.Perm.swap a x t'
      | succ k' =>
          simp only [List.getElem?_cons_succ] at h
          have s1 : List.Perm (b :: x :: t'.set k' a) (x :: b :: t'.set k' a) :=
            List.Perm.swap x b _
          have s2 : List.Perm (x :: b :: t'.set k' a) (x :: a :: t') :=
            (ih k' b h).cons x
          have s3 : List.Perm (x :: a :: t') (a :: x :: t') := List.Perm.swap a x t'
          simpa [List.set] using (s1.trans s2).trans s3

lemma swap_set_perm_lt :
    ∀ (l : List α) (i j : ℕ) (a b : α), i < j →
      l[i]? = some a → l[j]? = some b →
      List.Perm ((l.set i b).set j a) l := by
  intro l
  induction l with
  | nil => intro i j a b hij hi hj; simp at hi
  | cons x t ih =>
      intro i j a b hij hi hj
      cases i with
      | zero =>
          simp only [List.getElem?_cons_zero, Option.some.injEq] at hi
          subst hi
          cases j with
          | zero => omega
          | succ k =>
              simp only [List.getElem?_cons_succ] at hj
              simpa [List.set] using cons_set_perm x t k b hj
      | succ i' =>
          cases j with
          | zero => omega
          | succ j' =>
              simp only [List.getElem?_cons_succ] at hi hj
              simpa [List.set] using (ih i' j' a b (by omega) hi hj).cons x

lemma swapAt_perm (l : List α) (i j : ℕ) : List.Perm (swapAt l i j) l := by
  unfold swapAt
  cases hi : l[i]? with
  | none => exact List.Perm.refl l
  | some a =>
      cases hj : l[j]? with
      | none => exact List.Perm.refl l
      | some b =>
          show List.Perm ((l.set i b).set j a) l
          rcases lt_trichotomy i j with h | h | h
          · exact swap_set_perm_lt l i j a b h hi hj
          · subst h
            rw [hi] at hj
            cases hj
            rw [set_self_of_getElem l i a hi, set_self_of_getElem l i a hi]
          · rw [List.set_comm _ _ _ (by omega : i ≠ j)]
            exact swap_set_perm_lt l j i b a h hj hi

lemma fyLoop_perm (choice : ℕ → ℕ) :
    ∀ (n : ℕ) (l : List α), List.Perm (fyLoop choice l n) l := by
  intro n
  induction n with
  | zero => intro l; exact List.Perm.refl l
  | succ i ih =>
      intro l
      exact (ih (swapAt l (i + 1) (choice (i + 1)))).trans
        (swapAt_perm l (i + 1) (choice (i + 1)))

lemma fyShuffle_perm (choice : ℕ → ℕ) (l : List α) :
    List.Perm (fyShuffle choice l) l :=
  fyLoop_perm choice (l.length - 1) l

lemma seedAssignments_length (pal : List String) (total : ℕ) (pick : ℕ → ℕ)
    (h : pal.length ≤ total) : (seedAssignments pal total pick).length = total := by
  simp [seedAssignments]
  omega

/-- C4: for any palette of size P and any target sector count N at least P,
the assignment list built by initDynamicBackground has length N and contains
every palette color at least once, and this survives the Fisher-Yates pass
because the shuffle is a permutation (it preserves the multiset of
assignments); the conclusion holds in particular for the wheel actually
generated, with the fixed six-color palette and N = 20. -/
theorem palette_coverage (pal : List String) (total : ℕ) (pick choice : ℕ → ℕ)
    (h : pal.length ≤ total) :
    List.Perm (fyShuffle choice (seedAssignments pal total pick))
      (seedAssignments pal total pick) ∧
    (fyShuffle choice (seedAssignments pal total pick)).length = total ∧
    (∀ c ∈ pal, c ∈ fyShuffle choice (seedAssignments pal total pick)) ∧
    ∀ rand : ℕ → ℝ,
      (initSectorData pick choice rand).assignments.length = totalSectors ∧
      ∀ c ∈ palette, c ∈ (initSectorData pick choice rand).assignments := by
  have hperm := fyShuffle_perm choice (seedAssignments pal total pick)
  have hmem : ∀ c ∈ pal, c ∈ fyShuffle choice (seedAssignments pal total pick) := by
    intro c hc
    exact hperm.mem_iff.mpr (by simp [seedAssignments, hc])
  refine ⟨hperm, by rw [hperm.length_eq, seedAssignments_length pal total pick h], hmem, ?_⟩
  intro rand
  have hperm2 := fyShuffle_perm choice (seedAssignments palette totalSectors pick)
  have ha : (initSectorData pick choice rand).assignments =
      fyShuffle choice (seedAssignments palette totalSectors pick) := by
    simp only [initSectorData]
  rw [ha]
  refine ⟨?_, fun c hc => hperm2.mem_iff.mpr (by simp [seedAssignments, hc])⟩
  rw [hperm2.length_eq, seedAssignments_length palette totalSectors pick (by decide)]

theorem palette_coverage_witness :
    palette.length ≤ 20 ∧
    (fyShuffle (fun i => i) (seedAssignments palette 20 (fun _ => 0))).length = 20 ∧
    ∀ c ∈ palette, c ∈ fyShuffle (fun i => i) (seedAssignments palette 20 (fun _ => 0)) := by
  have main := palette_coverage palette 20 (fun _ => 0) (fun i => i) (by decide)
  exact ⟨by decide, main.2.1, main.2.2.1⟩

/-! ### Angle normalization and atan2 values -/

lemma wrapAngle_mem_Ico (a : ℝ) :
    wrapAngle a ∈ Set.Ico (-(π / 2)) (3 * π / 2) := by
  have h := toIcoMod_mem_Ico Real.two_pi_pos (-(π / 2)) a
  rw [show -(π / 2) + 2 * π = 3 * π / 2 by ring] at h
  exact h

lemma wrapAngle_add_two_pi (a : ℝ) : wrapAngle (a + 2 * π) = wrapAngle a :=
  toIcoMod_add_right _ _ _

lemma wrapAngle_sub_two_pi (a : ℝ) : wrapAngle (a - 2 * π) = wrapAngle a := by
  have h := wrapAngle_add_two_pi (a - 2 * π)
  rw [sub_add_cancel] at h
  exact h.symm

lemma wrapAngle_eq_self (a : ℝ) (h1 : -(π / 2) ≤ a) (h2 : a < 3 * π / 2) :
    wrapAngle a = a := by
  apply (toIcoMod_eq_self Real.two_pi_pos).mpr
  exact ⟨h1, by linarith⟩

/-- The two while-loops of lines 39-40 compute exactly wrapAngle: it is
invariant under shifting by one turn in either direction and is the identity
on the target interval [-π/2, 3π/2). -/
lemma wrapAngle_loop_equation (a : ℝ) :
    wrapAngle a =
      if a < -(π / 2) then wrapAngle (a + 2 * π)
      else if 3 * π / 2 ≤ a then wrapAngle (a - 2 * π)
      else a := by
  split_ifs with h1 h2
  · exact (wrapAngle_add_two_pi a).symm
  · exact (wrapAngle_sub_two_pi a).symm
  · exact wrapAngle_eq_self a (by linarith) (by linarith)

lemma atan2_zero_neg_one : atan2 0 (-1) = π := by
  have h : (⟨-1, 0⟩ : ℂ) = -1 := by simp [Complex.ext_iff]
  rw [atan2, h, Complex.arg_neg_one]

lemma atan2_one_zero : atan2 1 (-(0 : ℝ)) = π / 2 := by
  have h : (⟨-(0 : ℝ), 1⟩ : ℂ) = Complex.I := by simp [Complex.ext_iff]
  rw [atan2, h, Complex.arg_I]

/-! ### Partial sums of the weight list -/

lemma take_sum_nonneg (ws : List ℝ) (h : ∀ w ∈ ws, 0 ≤ w) (i : ℕ) :
    0 ≤ (ws.take i).sum :=
  List.sum_nonneg fun x hx => h x (List.take_subset i ws hx)

lemma take_sum_mono (ws : List ℝ) (h : ∀ w ∈ ws, 0 ≤ w) :
    ∀ i j, i ≤ j → (ws.take i).sum ≤ (ws.take j).sum := by
  induction ws with
  | nil => intro i j _; simp
  | cons w t ih =>
      intro i j hij
      cases i with
      | zero =>
          simpa using take_sum_nonneg (w :: t) h j
      | succ i' =>
          cases j with
          | zero => omega
          | succ j' =>
              simp only [List.take_succ_cons, List.sum_cons]
              have ht : ∀ x ∈ t, 0 ≤ x := fun x hx => h x (List.mem_cons_of_mem w hx)
              exact add_le_add_left (ih ht i' j' (by omega)) w

lemma take_succ_sum (ws : List ℝ) :
    ∀ (i : ℕ) (w : ℝ), ws[i]? = some w →
      (ws.take (i + 1)).sum = (ws.take i).sum + w := by
  induction ws with
  | nil => intro i w h; simp at h
  | cons x t ih =>
      intro i w h
      cases i with
      | zero =>
          simp only [List.getElem?_cons_zero, Option.some.injEq] at h
          subst h
          simp [List.take_succ_cons]
      | succ i' =>
          simp only [List.getElem?_cons_succ] at h
          simp only [List.take_succ_cons, List.sum_cons, ih i' w h]
          ring

lemma length_mul_le_sum (ws : List ℝ) (b : ℝ) (h : ∀ w ∈ ws, b ≤ w) :
    b * ws.length ≤ ws.sum := by
  induction ws with
  | nil => simp
  | cons w t ih =>
      have hw := h w (List.mem_cons_self w t)
      have ht := ih fun x hx => h x (List.mem_cons_of_mem w hx)
      simp only [List.sum_cons, List.length_cons]
      push_cast
      linarith

/-! ### The sector layout and the scanning loop -/

lemma sectorStart_mono (ws : List ℝ) (W : ℝ) (hW : 0 < W)
    (h : ∀ w ∈ ws, 0 ≤ w) {i j : ℕ} (hij : i ≤ j) :
    sectorStart ws W i ≤ sectorStart ws W j := by
  unfold sectorStart
  have h1 := take_sum_mono ws h i j hij
  have h2 : (ws.take i).sum / W ≤ (ws.take j).sum / W :=
    (div_le_div_iff_of_pos_right hW).mpr h1
  have h3 := mul_le_mul_of_nonneg_right h2
    (by positivity : (0 : ℝ) ≤ 2 * π)
  linarith

lemma sectorStart_succ (ws : List ℝ) (W : ℝ) {i : ℕ} {w : ℝ}
    (h : ws[i]? = some w) :
    sectorStart ws W (i + 1) = sectorStart ws W i + w / W * (2 * π) := by
  unfold sectorStart
  rw [take_succ_sum ws i w h]
  ring

lemma sectorStart_interval_unique (ws : List ℝ) (W a : ℝ) (hW : 0 < W)
    (h : ∀ w ∈ ws, 0 < w) {i j : ℕ}
    (hi1 : sectorStart ws W i ≤ a) (hi2 : a < sectorStart ws W (i + 1))
    (hj1 : sectorStart ws W j ≤ a) (hj2 : a < sectorStart ws W (j + 1)) :
    i = j := by
  have hnn : ∀ w ∈ ws, 0 ≤ w := fun w hw => (h w hw).le
  by_contra hne
  rcases lt_or_gt_of_ne hne with hlt | hlt
  · have := sectorStart_mono ws W hW hnn (show i + 1 ≤ j by omega)
    linarith
  · have := sectorStart_mono ws W hW hnn (show j + 1 ≤ i by omega)
    linarith

lemma findSector_exists (W a : ℝ) (hW : 0 < W) :
    ∀ (ws : List ℝ) (c : ℝ), (∀ w ∈ ws, 0 < w) → c ≤ a →
      a < c + ws.sum / W * (2 * π) →
      ∃ i, i < ws.length ∧ findSector W a ws c = some i ∧
        c + (ws.take i).sum / W * (2 * π) ≤ a ∧
        a < c + (ws.take (i + 1)).sum / W * (2 * π) := by
  intro ws
  induction ws with
  | nil =>
      intro c _ hc hlt
      exfalso
      simp only [List.sum_nil, zero_div, zero_mul, add_zero] at hlt
      linarith
  | cons w t ih =>
      intro c hpos hc hlt
      by_cases hin : a < c + w / W * (2 * π)
      · refine ⟨0, by simp, ?_, by simpa using hc, ?_⟩
        · simp only [findSector]
          rw [if_pos ⟨hc, hin⟩]
        · simpa [List.take_succ_cons] using hin
      · push_neg at hin
        have hlt2 : a < c + w / W * (2 * π) + t.sum / W * (2 * π) := by
          have he : c + (w :: t).sum / W * (2 * π) =
              c + w / W * (2 * π) + t.sum / W * (2 * π) := by
            simp only [List.sum_cons]; ring
          linarith [he ▸ hlt]
        obtain ⟨i, hlen, heq, h1, h2⟩ :=
          ih (c + w / W * (2 * π))
            (fun x hx => hpos x (List.mem_cons_of_mem w hx)) hin hlt2
        refine ⟨i + 1, by simpa using Nat.succ_lt_succ hlen, ?_, ?_, ?_⟩
        · simp only [findSector]
          rw [if_neg (fun hcontra => absurd hcontra.2 (not_lt.mpr hin)), heq]
          rfl
        · have he : c + ((w :: t).take (i + 1)).sum / W * (2 * π) =
              c + w / W * (2 * π) + (t.take i).sum / W * (2 * π) := by
            simp only [List.take_succ_cons, List.sum_cons]; ring
          linarith [he ▸ h1]
        · have he : c + ((w :: t).take (i + 2)).sum / W * (2 * π) =
              c + w / W * (2 * π) + (t.take (i + 1)).sum / W * (2 * π) := by
            simp only [List.take_succ_cons, List.sum_cons]; ring
          linarith [he ▸ h2]

lemma sectorLoop_eq_findSector (W a : ℝ) :
    ∀ (cs : List String) (ws : List ℝ) (c : ℝ), cs.length = ws.length →
      sectorLoop W a cs ws c =
        (findSector W a ws c).elim 0 (fun i => (prizeValues (cs.getD i "")).getD 0) := by
  intro cs
  induction cs with
  | nil =>
      intro ws c hlen
      cases ws with
      | nil => simp [sectorLoop, findSector]
      | cons w t => simp at hlen
  | cons color rest ih =>
      intro ws c hlen
      cases ws with
      | nil => simp at hlen
      | cons w t =>
          simp only [List.length_cons, Nat.succ.injEq] at hlen
          simp only [sectorLoop, findSector]
          by_cases hcond : c ≤ a ∧ a < c + w / W * (2 * π)
          · rw [if_pos hcond, if_pos hcond]
            rfl
          · rw [if_neg hcond, if_neg hcond, ih t _ hlen]
            cases findSector W a t (c + w / W * (2 * π)) with
            | none => rfl
            | some i => rfl

lemma no_match_sectorLoop_zero (W a : ℝ) :
    ∀ (cs : List String) (ws : List ℝ) (c : ℝ),
      findSector W a ws c = none → sectorLoop W a cs ws c = 0 := by
  intro cs
  induction cs with
  | nil =>
      intro ws c _
      cases ws <;> simp [sectorLoop]
  | cons color rest ih =>
      intro ws c hnone
      cases ws with
      | nil => simp [sectorLoop]
      | cons w t =>
          simp only [findSector] at hnone
          simp only [sectorLoop]
          by_cases hcond : c ≤ a ∧ a < c + w / W * (2 * π)
          · rw [if_pos hcond] at hnone
            simp at hnone
          · rw [if_neg hcond] at hnone
            rw [if_neg hcond]
            exact ih t _ (by simpa using hnone)

/-! ### C2: the linear scan selects exactly one sector -/

/-- C2: for every generated wheel (positive weights, totalWeight equal to
their sum) and every ray angle in [-π/2, 3π/2), the half-open linear scan
returns exactly one sector index: the unique index whose angle range
contains the ray angle; and an angle exactly equal to a sector start
boundary resolves to the sector beginning there, never to the previous one. -/
theorem resolution_partition (ws : List ℝ) (W a : ℝ)
    (hne : ws ≠ []) (hpos : ∀ w ∈ ws, 0 < w) (hW : W = ws.sum)
    (ha1 : -(π / 2) ≤ a) (ha2 : a < 3 * π / 2) :
    (∃ i, i < ws.length ∧ findSector W a ws (-(π / 2)) = some i ∧
      sectorStart ws W i ≤ a ∧ a < sectorStart ws W (i + 1) ∧
      ∀ j, sectorStart ws W j ≤ a → a < sectorStart ws W (j + 1) → j = i) ∧
    ∀ k, k < ws.length → a = sectorStart ws W k →
      findSector W a ws (-(π / 2)) = some k := by
  have hsum : 0 < ws.sum := List.sum_pos ws hpos hne
  have hWpos : 0 < W := hW ▸ hsum
  have hcov : a < -(π / 2) + ws.sum / W * (2 * π) := by
    rw [hW, div_self (ne_of_gt hsum)]
    linarith
  obtain ⟨i, hlen, heq, h1, h2⟩ :=
    findSector_exists W a hWpos ws (-(π / 2)) hpos ha1 hcov
  have hi1 : sectorStart ws W i ≤ a := h1
  have hi2 : a < sectorStart ws W (i + 1) := h2
  have huniq : ∀ j, sectorStart ws W j ≤ a → a < sectorStart ws W (j + 1) → j = i :=
    fun j hj1 hj2 =>
      sectorStart_interval_unique ws W a hWpos hpos hj1 hj2 hi1 hi2
  refine ⟨⟨i, hlen, heq, hi1, hi2, huniq⟩, ?_⟩
  intro k hk hak
  obtain ⟨w, hw⟩ : ∃ w, ws[k]? = some w :=
    ⟨_, List.getElem?_eq_getElem hk⟩
  have hwpos : 0 < w := hpos w (List.getElem?_mem hw)
  have hk2 : a < sectorStart ws W (k + 1) := by
    rw [sectorStart_succ ws W hw, hak]
    have : 0 < w / W * (2 * π) := by positivity
    linarith
  have := huniq k (le_of_eq hak.symm) hk2
  rw [heq, this]

theorem resolution_partition_witness :
    ([1, 1] : List ℝ) ≠ [] ∧ (2 : ℝ) = ([1, 1] : List ℝ).sum ∧
    -(π / 2) ≤ (0 : ℝ) ∧ (0 : ℝ) < 3 * π / 2 ∧
    ((∃ i, i < ([1, 1] : List ℝ).length ∧
        findSector 2 0 [1, 1] (-(π / 2)) = some i ∧
        sectorStart [1, 1] 2 i ≤ 0 ∧ (0 : ℝ) < sectorStart [1, 1] 2 (i + 1) ∧
        ∀ j, sectorStart [1, 1] 2 j ≤ 0 → (0 : ℝ) < sectorStart [1, 1] 2 (j + 1) → j = i) ∧
      ∀ k, k < ([1, 1] : List ℝ).length → (0 : ℝ) = sectorStart [1, 1] 2 k →
        findSector 2 0 [1, 1] (-(π / 2)) = some k) := by
  have hpi := Real.pi_pos
  refine ⟨by simp, by norm_num, by linarith, by linarith, ?_⟩
  exact resolution_partition [1, 1] 2 0 (by simp)
    (by intro w hw; simp at hw; rw [hw]; norm_num)
    (by norm_num) (by linarith) (by linarith)

/-! ### C3: the drawn layout partitions the circle -/

lemma buildSectorViews_spec (W : ℝ) :
    ∀ (cs : List String) (ws : List ℝ) (c : ℝ), cs.length = ws.length →
      (buildSectorViews W cs ws c).length = ws.length ∧
      ∀ i, i < ws.length →
        ∃ v w, (buildSectorViews W cs ws c)[i]? = some v ∧ ws[i]? = some w ∧
          v.startAngle = c + (ws.take i).sum / W * (2 * π) ∧
          v.endAngle = c + (ws.take (i + 1)).sum / W * (2 * π) := by
  intro cs
  induction cs with
  | nil =>
      intro ws c hlen
      cases ws with
      | nil => exact ⟨rfl, fun i hi => by simp at hi⟩
      | cons w t => simp at hlen
  | cons color rest ih =>
      intro ws c hlen
      cases ws with
      | nil => simp at hlen
      | cons w t =>
          simp only [List.length_cons, Nat.succ.injEq] at hlen
          obtain ⟨ihlen, ihget⟩ := ih t (c + w / W * (2 * π)) hlen
          constructor
          · simpa [buildSectorViews] using ihlen
          · intro i hi
            cases i with
            | zero =>
                refine ⟨SectorView.mk c (c + w / W * (2 * π))
                    (c + w / W * (2 * π) / 2) color, w,
                  ?_, by simp, by simp, ?_⟩
                · simp [buildSectorViews]
                · simp [List.take_succ_cons]
            | succ i' =>
                simp only [List.length_cons, Nat.succ_lt_succ_iff] at hi
                obtain ⟨v, w', hv, hw', hstart, hend⟩ := ihget i' hi
                refine ⟨v, w', ?_, ?_, ?_, ?_⟩
                · simpa [buildSectorViews] using hv
                · simpa using hw'
                · rw [hstart]
                  simp only [List.take_succ_cons, List.sum_cons]
                  ring
                · rw [hend]
                  simp only [List.take_succ_cons, List.sum_cons]
                  ring

lemma buildSectorViews_span_sum (W : ℝ) :
    ∀ (cs : List String) (ws : List ℝ) (c : ℝ), cs.length = ws.length →
      ((buildSectorViews W cs ws c).map
        (fun v => v.endAngle - v.startAngle)).sum = ws.sum / W * (2 * π) := by
  intro cs
  induction cs with
  | nil =>
      intro ws c hlen
      cases ws with
      | nil => simp [buildSectorViews]
      | cons w t => simp at hlen
  | cons color rest ih =>
      intro ws c hlen
      cases ws with
      | nil => simp at hlen
      | cons w t =>
          simp only [List.length_cons, Nat.succ.injEq] at hlen
          simp only [buildSectorViews, List.map_cons, List.sum_cons,
            ih t (c + w / W * (2 * π)) hlen]
          ring

/-- C3: for every generated wheel the drawn layout is an exact partition of
the circle: the first sector starts at -π/2, each sector spans
weight / totalWeight * 2π, each sector ends exactly where the next begins,
the spans sum to 2π, and the last sector ends at 3π/2, so the sectors cover
[-π/2, 3π/2) contiguously with no gaps or overlaps. -/
theorem wheel_partition (cs : List String) (ws : List ℝ) (W : ℝ)
    (hlen : cs.length = ws.length) (hne : ws ≠ [])
    (hpos : ∀ w ∈ ws, 0 < w) (hW : W = ws.sum) :
    (buildSectorViews W cs ws (-(π / 2))).length = ws.length ∧
    (∀ v, (buildSectorViews W cs ws (-(π / 2)))[0]? = some v →
      v.startAngle = -(π / 2)) ∧
    (∀ (i : ℕ) (v : SectorView) (w : ℝ),
      (buildSectorViews W cs ws (-(π / 2)))[i]? = some v →
      ws[i]? = some w → v.endAngle - v.startAngle = w / W * (2 * π)) ∧
    (∀ (i : ℕ) (v v2 : SectorView),
      (buildSectorViews W cs ws (-(π / 2)))[i]? = some v →
      (buildSectorViews W cs ws (-(π / 2)))[i + 1]? = some v2 →
      v2.startAngle = v.endAngle) ∧
    ((buildSectorViews W cs ws (-(π / 2))).map
      (fun v => v.endAngle - v.startAngle)).sum = 2 * π ∧
    ∀ v, (buildSectorViews W cs ws (-(π / 2)))[ws.length - 1]? = some v →
      v.endAngle = 3 * π / 2 := by
  have hsum : 0 < ws.sum := List.sum_pos ws hpos hne
  have hW0 : W ≠ 0 := by rw [hW]; exact ne_of_gt hsum
  obtain ⟨hlength, hget⟩ := buildSectorViews_spec W cs ws (-(π / 2)) hlen
  have hidx : ∀ (i : ℕ) (v : SectorView), (buildSectorViews W cs ws (-(π / 2)))[i]? = some v →
      v.startAngle = -(π / 2) + (ws.take i).sum / W * (2 * π) ∧
      v.endAngle = -(π / 2) + (ws.take (i + 1)).sum / W * (2 * π) := by
    intro i v hv
    have hi : i < ws.length := by
      rw [← hlength]
      rw [List.getElem?_eq_some_iff] at hv
      exact hv.1
    obtain ⟨v', w', hv', _, hs, he⟩ := hget i hi
    rw [hv] at hv'
    cases hv'
    exact ⟨hs, he⟩
  refine ⟨hlength, ?_, ?_, ?_, ?_, ?_⟩
  · intro v hv
    rw [(hidx 0 v hv).1]
    simp
  · intro i v w hv hw
    obtain ⟨hs, he⟩ := hidx i v hv
    rw [hs, he, take_succ_sum ws i w hw]
    ring
  · intro i v v2 hv hv2
    rw [(hidx (i + 1) v2 hv2).1, (hidx i v hv).2]
  · rw [buildSectorViews_span_sum W cs ws (-(π / 2)) hlen, hW,
      div_self (ne_of_gt hsum), one_mul]
  · intro v hv
    have hlen0 : 0 < ws.length := List.length_pos.mpr hne
    rw [(hidx (ws.length - 1) v hv).2,
      show ws.length - 1 + 1 = ws.length by omega, List.take_length ws]
    rw [hW, div_self (ne_of_gt hsum)]
    ring

theorem wheel_partition_witness :
    (["#FF78A3", "#47D495"] : List String).length = ([1, 1] : List ℝ).length ∧
    ([1, 1] : List ℝ) ≠ [] ∧ (2 : ℝ) = ([1, 1] : List ℝ).sum ∧
    (buildSectorViews 2 ["#FF78A3", "#47D495"] [1, 1] (-(π / 2))).length = 2 ∧
    ((buildSectorViews 2 ["#FF78A3", "#47D495"] [1, 1] (-(π / 2))).map
      (fun v => v.endAngle - v.startAngle)).sum = 2 * π := by
  have main := wheel_partition ["#FF78A3", "#47D495"] [1, 1] 2 (by simp) (by simp)
    (by intro w hw; simp at hw; rw [hw]; norm_num) (by norm_num)
  exact ⟨by simp, by simp, by norm_num, main.1, main.2.2.2.2.1⟩

/-! ### C5: what the code actually does when no sector matches -/

/-- On this one-sector wheel with an inflated totalWeight the single sector
covers only [-π/2, π/2), so the drawn-ray angle π/2 matches no sector. -/
lemma findSector_single_none :
    findSector 2 (π / 2) [1] (-(π / 2)) = none := by
  simp only [findSector]
  rw [if_neg]
  · simp [findSector]
  · rintro ⟨-, h⟩
    have : -(π / 2) + 1 / (2 : ℝ) * (2 * π) = π / 2 := by ring
    rw [this] at h
    exact lt_irrefl _ h

lemma wrapAngle_half_pi : wrapAngle (π / 2) = π / 2 := by
  have hpi := Real.pi_pos
  exact wrapAngle_eq_self (π / 2) (by linarith) (by linarith)

/-- Counterexample to C5 as stated: on this wheel state the normalized ray
angle π/2 (heading (0, 1), drawn ray pointing straight down) matches no
sector, and the resolver returns 0 - not the last sector and its prize 100. -/
theorem no_match_fallback_counterexample :
    findSector 2 (π / 2) [1] (-(π / 2)) = none ∧
    detectDrawnRaySectorPrize
      (some (SectorData.mk ["#FF78A3"] [1] 2 1)) 0 1 = 0 ∧
    (prizeValues "#FF78A3").getD 0 = 100 := by
  refine ⟨findSector_single_none, ?_, by decide⟩
  show sectorLoop 2 (wrapAngle (atan2 1 (-0))) ["#FF78A3"] [1] (-(π / 2)) = 0
  rw [atan2_one_zero, wrapAngle_half_pi]
  exact no_match_sectorLoop_zero 2 (π / 2) ["#FF78A3"] [1] (-(π / 2))
    findSector_single_none

/-- C5 amended: when the normalized ray angle matches no sector of the
half-open scan, detectDrawnRaySectorPrize returns the no-match result 0 (the
loop falls through to the final return 0), not the last sector or its prize;
for a generated wheel (positive weights summing to totalWeight) this case
never arises on normalized angles, because the scan always finds a sector. -/
theorem no_match_returns_zero (cs : List String) (ws : List ℝ) (W c a : ℝ)
    (hnone : findSector W a ws c = none) :
    sectorLoop W a cs ws c = 0 ∧
    ∀ (a2 : ℝ), ws ≠ [] → (∀ w ∈ ws, 0 < w) → W = ws.sum →
      -(π / 2) ≤ a2 → a2 < 3 * π / 2 →
      findSector W a2 ws (-(π / 2)) ≠ none := by
  refine ⟨no_match_sectorLoop_zero W a cs ws c hnone, ?_⟩
  intro a2 hne hpos hW h1 h2
  have hsum : 0 < ws.sum := List.sum_pos ws hpos hne
  have hWpos : 0 < W := hW ▸ hsum
  have hcov : a2 < -(π / 2) + ws.sum / W * (2 * π) := by
    rw [hW, div_self (ne_of_gt hsum)]
    linarith
  obtain ⟨i, _, heq, -, -⟩ :=
    findSector_exists W a2 hWpos ws (-(π / 2)) hpos h1 hcov
  rw [heq]
  exact Option.some_ne_none i

theorem no_match_returns_zero_witness :
    findSector 2 (π / 2) [1] (-(π / 2)) = none ∧
    sectorLoop 2 (π / 2) ["#FF78A3"] [1] (-(π / 2)) = 0 :=
  ⟨findSector_single_none,
    (no_match_returns_zero ["#FF78A3"] [1] 2 (-(π / 2)) (π / 2)
      findSector_single_none).1⟩

/-! ### Properties of the generated wheel -/

lemma initSectorData_assignments (pick choice : ℕ → ℕ) (rand : ℕ → ℝ) :
    (initSectorData pick choice rand).assignments =
      fyShuffle choice (seedAssignments palette totalSectors pick) := by
  simp only [initSectorData]

lemma initSectorData_weights (pick choice : ℕ → ℕ) (rand : ℕ → ℝ) :
    (initSectorData pick choice rand).weights = initWeights rand := by
  simp only [initSectorData]

lemma initSectorData_totalWeight (pick choice : ℕ → ℕ) (rand : ℕ → ℝ) :
    (initSectorData pick choice rand).totalWeight = (initWeights rand).sum := by
  simp only [initSectorData]

lemma initAssignments_length (pick choice : ℕ → ℕ) (rand : ℕ → ℝ) :
    (initSectorData pick choice rand).assignments.length = 20 := by
  rw [initSectorData_assignments,
    (fyShuffle_perm choice (seedAssignments palette totalSectors pick)).length_eq,
    seedAssignments_length palette totalSectors pick (by decide)]
  rfl

lemma initWeights_length (rand : ℕ → ℝ) : (initWeights rand).length = 20 := by
  simp only [initWeights, List.length_map, List.length_range, totalSectors]

lemma initWeights_bounds (rand : ℕ → ℝ) (hrand : ∀ k, 0 ≤ rand k ∧ rand k < 1) :
    ∀ w ∈ initWeights rand, 0.4 ≤ w ∧ w ≤ 1.2 := by
  intro w hw
  simp only [initWeights, List.mem_map] at hw
  obtain ⟨k, -, hk⟩ := hw
  obtain ⟨h0, h1⟩ := hrand k
  constructor <;> [nlinarith [hk]; nlinarith [hk]]

lemma initWeights_pos (rand : ℕ → ℝ) (hrand : ∀ k, 0 ≤ rand k ∧ rand k < 1) :
    ∀ w ∈ initWeights rand, 0 < w := by
  intro w hw
  have := (initWeights_bounds rand hrand w hw).1
  linarith

lemma initWeights_ne_nil (rand : ℕ → ℝ) : initWeights rand ≠ [] := by
  intro h
  have := initWeights_length rand
  rw [h] at this
  simp at this

lemma initWeights_sum_ge (rand : ℕ → ℝ) (hrand : ∀ k, 0 ≤ rand k ∧ rand k < 1) :
    8 ≤ (initWeights rand).sum := by
  have h := length_mul_le_sum (initWeights rand) 0.4
    (fun w hw => (initWeights_bounds rand hrand w hw).1)
  rw [initWeights_length rand] at h
  norm_num at h
  exact h

/-- C1: the resolver classifies with the horizontally mirrored ray: the
angle it scans with is atan2 of (y, -x); in particular, for a heading of
(1, 0) the mirrored ray has angle π, so on any generated wheel the prize is
that of the unique sector whose range contains π, and that sector is never
the one whose range contains angle 0. -/
theorem mirror_resolution (pick choice : ℕ → ℕ) (rand : ℕ → ℝ)
    (hrand : ∀ k, 0 ≤ rand k ∧ rand k < 1) (i : ℕ)
    (hi1 : sectorStart (initWeights rand) (initWeights rand).sum i ≤ π)
    (hi2 : π < sectorStart (initWeights rand) (initWeights rand).sum (i + 1)) :
    (∀ (d : SectorData) (hx hy : ℝ),
      detectDrawnRaySectorPrize (some d) hx hy =
        sectorLoop d.totalWeight (wrapAngle (atan2 hy (-hx)))
          d.assignments d.weights (-(π / 2))) ∧
    detectDrawnRaySectorPrize (some (initSectorData pick choice rand)) 1 0 =
      (prizeValues
        ((initSectorData pick choice rand).assignments.getD i "")).getD 0 ∧
    ∀ j, sectorStart (initWeights rand) (initWeights rand).sum j ≤ 0 →
      (0 : ℝ) < sectorStart (initWeights rand) (initWeights rand).sum (j + 1) →
      j ≠ i := by
  have hpi := Real.pi_pos
  have hdet : ∀ (d : SectorData) (hx hy : ℝ),
      detectDrawnRaySectorPrize (some d) hx hy =
        sectorLoop d.totalWeight (wrapAngle (atan2 hy (-hx)))
          d.assignments d.weights (-(π / 2)) := fun _ _ _ => rfl
  have hpos := initWeights_pos rand hrand
  have hne := initWeights_ne_nil rand
  have hsum : 0 < (initWeights rand).sum := List.sum_pos _ hpos hne
  have hW8 := initWeights_sum_ge rand hrand
  have hcov : π < -(π / 2) + (initWeights rand).sum / (initWeights rand).sum * (2 * π) := by
    rw [div_self (ne_of_gt hsum)]
    linarith
  obtain ⟨i0, hi0len, heq, h01, h02⟩ :=
    findSector_exists (initWeights rand).sum π hsum (initWeights rand) (-(π / 2))
      hpos (by linarith) hcov
  have hii : i0 = i :=
    sectorStart_interval_unique (initWeights rand) (initWeights rand).sum π hsum
      hpos h01 h02 hi1 hi2
  subst hii
  have hilen : i0 < 20 := by rw [← initWeights_length rand]; exact hi0len
  refine ⟨hdet, ?_, ?_⟩
  · rw [hdet, atan2_zero_neg_one,
      wrapAngle_eq_self π (by linarith) (by linarith),
      initSectorData_assignments, initSectorData_weights, initSectorData_totalWeight,
      sectorLoop_eq_findSector (initWeights rand).sum π _ (initWeights rand) (-(π / 2))
        (by rw [← initSectorData_assignments pick choice rand,
          initAssignments_length, initWeights_length]),
      heq]
    simp only [Option.elim]
  · intro j hj1 hj2 hji
    subst hji
    obtain ⟨w, hw⟩ : ∃ w, (initWeights rand)[j]? = some w := by
      have hj : j < (initWeights rand).length := by
        rw [initWeights_length rand]; exact hilen
      exact ⟨_, List.getElem?_eq_getElem hj⟩
    have hwb := initWeights_bounds rand hrand w (List.getElem?_mem hw)
    have hspan : sectorStart (initWeights rand) (initWeights rand).sum (j + 1) =
        sectorStart (initWeights rand) (initWeights rand).sum j +
          w / (initWeights rand).sum * (2 * π) :=
      sectorStart_succ (initWeights rand) (initWeights rand).sum hw
    have hdiv : w / (initWeights rand).sum ≤ 1.2 / 8 :=
      div_le_div₀ (by norm_num) hwb.2 (by norm_num) hW8
    have hspanle : w / (initWeights rand).sum * (2 * π) ≤ 1.2 / 8 * (2 * π) :=
      mul_le_mul_of_nonneg_right hdiv (by positivity)
    rw [hspan] at hi2
    nlinarith

lemma initWeights_zero : initWeights (fun _ => 0) = List.replicate 20 (0.4 : ℝ) := by
  have h : initWeights (fun _ => 0) = (List.range 20).map (fun _ => (0.4 : ℝ)) := by
    simp only [initWeights, totalSectors]
    exact List.map_congr_left (fun k _ => by norm_num)
  rw [h, List.map_const', List.length_range]

lemma initWeights_zero_take_sum (i : ℕ) :
    ((initWeights fun _ => 0).take i).sum = (min i 20 : ℕ) * (0.4 : ℝ) := by
  rw [initWeights_zero, List.take_replicate, List.sum_replicate, nsmul_eq_mul]

lemma initWeights_zero_sum : (initWeights fun _ => 0).sum = 8 := by
  rw [initWeights_zero, List.sum_replicate, nsmul_eq_mul]
  norm_num

theorem mirror_resolution_witness :
    sectorStart (initWeights fun _ => 0) (initWeights fun _ => 0).sum 15 ≤ π ∧
    π < sectorStart (initWeights fun _ => 0) (initWeights fun _ => 0).sum 16 ∧
    detectDrawnRaySectorPrize
      (some (initSectorData (fun _ => 0) (fun j => j) (fun _ => 0))) 1 0 =
      (prizeValues
        ((initSectorData (fun _ => 0) (fun j => j)
          (fun _ => 0)).assignments.getD 15 "")).getD 0 := by
  have hpi := Real.pi_pos
  have h15 : sectorStart (initWeights fun _ => 0) (initWeights fun _ => 0).sum 15 ≤ π := by
    unfold sectorStart
    rw [initWeights_zero_take_sum 15, initWeights_zero_sum]
    norm_num
    linarith
  have h16 : π < sectorStart (initWeights fun _ => 0) (initWeights fun _ => 0).sum 16 := by
    unfold sectorStart
    rw [initWeights_zero_take_sum 16, initWeights_zero_sum]
    norm_num
    linarith
  have main := mirror_resolution (fun _ => 0) (fun j => j) (fun _ => 0)
    (fun k => ⟨le_refl 0, by norm_num⟩) 15 h15 h16
  exact ⟨h15, h16, main.2.1⟩

/-! ### C9: resize redraws without touching the wheel state -/

lemma stepEvent_sectorData (s : GameState) (e : GameEvent) :
    (stepEvent s e).sectorData = s.sectorData := by
  cases e with
  | resize w h => rfl
  | frame r => rfl

/-- C9: redrawing on resize (and processing any number of frames) never
changes the stored wheel, so the sector angle list that drawBackground
recomputes from it is the same before and after any sequence of events;
moreover the angle list does not depend on the viewport size at all - only
the pixel geometry (center and radius) does - and per-frame resolution
reads the wheel without modifying it. -/
theorem resize_preserves_wheel :
    (∀ (s : GameState) (es : List GameEvent),
      (es.foldl stepEvent s).sectorData = s.sectorData) ∧
    (∀ (sd : Option SectorData) (w1 h1 w2 h2 : ℝ),
      (drawBackground sd w1 h1).map Prod.fst =
        (drawBackground sd w2 h2).map Prod.fst) ∧
    ∀ (s : GameState) (es : List GameEvent) (w1 h1 w2 h2 : ℝ),
      (drawBackground (es.foldl stepEvent s).sectorData w1 h1).map Prod.fst =
        (drawBackground s.sectorData w2 h2).map Prod.fst := by
  have hfold : ∀ (es : List GameEvent) (s : GameState),
      (es.foldl stepEvent s).sectorData = s.sectorData := by
    intro es
    induction es with
    | nil => intro s; rfl
    | cons e rest ih =>
        intro s
        rw [List.foldl_cons, ih (stepEvent s e), stepEvent_sectorData]
  have hdraw : ∀ (sd : Option SectorData) (w1 h1 w2 h2 : ℝ),
      (drawBackground sd w1 h1).map Prod.fst =
        (drawBackground sd w2 h2).map Prod.fst := by
    intro sd w1 h1 w2 h2
    cases sd with
    | none => rfl
    | some d => rfl
  exact ⟨fun s es => hfold es s, hdraw,
    fun s es w1 h1 w2 h2 => by rw [hfold es s]; exact hdraw _ w1 h1 w2 h2⟩
